import Mathlib

/-!
Verification of the `irontrade` simulated trading core.

Shallow embedding of:
* `src/api/common.rs` — `AssetPair` (string parsing / display),
  `Amount`, `Order`, `OrderStatus`, `OrderType`, `OrderSide`;
* `src/simulated/broker.rs` — `SimulatedBroker`: ledger maps,
  `place_order`, `queue_order`, `maybe_update_order`,
  `fill_order_immediately`, `set_notional_per_unit`;
* `src/simulated/environment.rs` — the catch-up `update()` loop and
  `get_latest_minute_bar`.

Modelling conventions:
* Rust `String` asset ids are `List Char`; `num_decimal::Num` /
  `BigDecimal` rationals are `ℚ`.  Division in the source panics on a
  zero divisor; here `ℚ` division is total with `x / 0 = 0`, and the
  theorems that depend on a quotient carry explicit nonzero hypotheses.
* `HashMap` / `HashSet` are association lists keyed by decidable
  equality; the order-reevaluation loop in `set_notional_per_unit`
  iterates the keys in table order (the source iterates a `HashSet` in
  unspecified order).
* Methods taking `&mut self` become `Broker → args → Outcome α × Broker`
  so that the state observable after an `Err` return is part of the
  model; `.panic` is the outcome of a Rust `unwrap()` on `None` (the
  source aborts there).
* Order ids are `Nat` supplied by the caller (the source draws a fresh
  UUID string; only its use as a map key matters).
* An order's `asset_symbol` string is kept as the structured pair: the
  source stores `asset_pair.to_string()` and re-parses it at each use,
  which is the identity for slash-free asset names (proved below as the
  parse/render round trip).
-/

abbrev Asset : Type := List Char

/-- Struct `AssetPair` from `src/api/common.rs`: a notional (quote) asset and a
quantity (base) asset. -/
structure AssetPair where
  notional_asset : Asset
  quantity_asset : Asset
deriving DecidableEq, Repr

/-- Splitting a string on the separator `'/'`, with the semantics of
Rust's `str::split("/")`: the empty string yields `[""]`, separators at
the ends yield empty tokens. -/
def splitSlash : List Char → List (List Char)
  | [] => [[]]
  | c :: rest =>
    if c = '/' then [] :: splitSlash rest
    else
      match splitSlash rest with
      | [] => [[c]]
      | t :: ts => (c :: t) :: ts

/-- Function `AssetPair::from_str` (`src/api/common.rs`): split on `"/"`, read
`tokens[1]` as the notional asset and `tokens[0]` as the quantity
asset.  The source indexes the token vector unconditionally, so an
input with fewer than two tokens panics; `none` models that panic.  The
declared error type (`std::string::ParseError` = `Infallible`) has no
values, so the `Ok` branch is the only returning branch. -/
def AssetPair.fromStr (s : List Char) : Option AssetPair :=
  match splitSlash s with
  | t0 :: t1 :: _ => some { notional_asset := t1, quantity_asset := t0 }
  | _ => none

/-- Display impl for `AssetPair`: `"{quantity_asset}/{notional_asset}"`. -/
def AssetPair.render (p : AssetPair) : List Char :=
  p.quantity_asset ++ '/' :: p.notional_asset

theorem splitSlash_ne_nil (s : List Char) : splitSlash s ≠ [] := by
  cases s with
  | nil => simp [splitSlash]
  | cons c rest =>
    simp only [splitSlash]
    by_cases h : c = '/'
    · simp [h]
    · simp only [if_neg h]
      cases hr : splitSlash rest <;> simp

theorem splitSlash_no_slash {s : List Char} (h : '/' ∉ s) :
    splitSlash s = [s] := by
  induction s with
  | nil => rfl
  | cons c rest ih =>
    have hc : c ≠ '/' := fun hc => h (by simp [hc])
    have hrest : '/' ∉ rest := fun hr => h (by simp [hr])
    simp only [splitSlash, if_neg hc, ih hrest]

theorem splitSlash_append {a : List Char} (ha : '/' ∉ a) (b : List Char) :
    splitSlash (a ++ '/' :: b) = a :: splitSlash b := by
  induction a with
  | nil => simp [splitSlash]
  | cons c rest ih =>
    have hc : c ≠ '/' := fun hc => ha (by simp [hc])
    have hrest : '/' ∉ rest := fun hr => ha (by simp [hr])
    simp only [List.cons_append, splitSlash, if_neg hc]
    rw [show rest.append ('/' :: b) = rest ++ '/' :: b from rfl, ih hrest]

theorem splitSlash_length (s : List Char) :
    (splitSlash s).length = s.count '/' + 1 := by
  induction s with
  | nil => rfl
  | cons c rest ih =>
    by_cases h : c = '/'
    · subst h
      simp [splitSlash, ih, List.count_cons]
    · have hcount : (c :: rest).count '/' = rest.count '/' := by
        simp [List.count_cons, h]
      simp only [splitSlash, if_neg h, hcount]
      cases hr : splitSlash rest with
      | nil => exact absurd hr (splitSlash_ne_nil rest)
      | cons t ts =>
        have := ih
        rw [hr] at this
        simpa using this

/-- C9: for every well-formed asset-pair string "A/B" (a quantity-asset
name, one '/', a notional-asset name), parsing succeeds, the parsed pair
has quantity_asset = A and notional_asset = B, and rendering the pair
yields exactly the input string. -/
theorem assetPair_parse_render_roundTrip (a b : List Char)
    (hane : a ≠ []) (hbne : b ≠ []) (ha : '/' ∉ a) (hb : '/' ∉ b) :
    ∃ p : AssetPair, AssetPair.fromStr (a ++ '/' :: b) = some p ∧
      p.quantity_asset = a ∧ p.notional_asset = b ∧
      p.render = a ++ '/' :: b := by
  refine ⟨{ notional_asset := b, quantity_asset := a }, ?_, rfl, rfl, rfl⟩
  unfold AssetPair.fromStr
  rw [splitSlash_append ha b, splitSlash_no_slash hb]

theorem assetPair_parse_render_roundTrip_witness :
    ∃ p : AssetPair,
      AssetPair.fromStr (['G', 'B', 'P'] ++ '/' :: ['U', 'S', 'D']) = some p ∧
      p.quantity_asset = ['G', 'B', 'P'] ∧ p.notional_asset = ['U', 'S', 'D'] ∧
      p.render = ['G', 'B', 'P'] ++ '/' :: ['U', 'S', 'D'] :=
  assetPair_parse_render_roundTrip ['G', 'B', 'P'] ['U', 'S', 'D']
    (by decide) (by decide) (by decide) (by decide)

/-- C10: `AssetPair::from_str` returns `Ok` exactly on the inputs that
contain a '/'; on a '/'-free input it indexes `tokens[1]` out of bounds
and panics (modelled as `none`) instead of returning its declared error
(`std::string::ParseError` is uninhabited, so no `Err` value exists). -/
theorem assetPair_fromStr_isSome_iff_slash (s : List Char) :
    (AssetPair.fromStr s).isSome ↔ '/' ∈ s := by
  constructor
  · intro h
    unfold AssetPair.fromStr at h
    cases hsp : splitSlash s with
    | nil => exact absurd hsp (splitSlash_ne_nil s)
    | cons t0 ts =>
      cases ts with
      | nil =>
        rw [hsp] at h
        simp at h
      | cons t1 ts' =>
        have hlen := splitSlash_length s
        rw [hsp] at hlen
        have hcount : 0 < s.count '/' := by
          simp only [List.length_cons] at hlen
          omega
        exact List.count_pos_iff_mem.mp hcount
  · intro h
    have hcount : 0 < s.count '/' := List.count_pos_iff_mem.mpr h
    have hlen := splitSlash_length s
    unfold AssetPair.fromStr
    cases hsp : splitSlash s with
    | nil => exact absurd hsp (splitSlash_ne_nil s)
    | cons t0 ts =>
      cases ts with
      | nil =>
        rw [hsp] at hlen
        simp only [List.length_cons, List.length_nil] at hlen
        omega
      | cons t1 ts' => simp

/-! ### The simulated broker (`src/simulated/broker.rs`) -/

inductive OrderStatus
  | new
  | partiallyFilled
  | filled
  | expired
  | unimplemented
deriving DecidableEq, Repr

inductive OrderType
  | market
  | limit
deriving DecidableEq, Repr

inductive OrderSide
  | buy
  | sell
deriving DecidableEq, Repr

/-- Enum `Amount` from `src/api/common.rs`: an order size in base units or in
quote-currency value. -/
inductive Amount
  | quantity (quantity : ℚ)
  | notional (notional : ℚ)
deriving DecidableEq, Repr

/-- Struct `Order` from `src/api/common.rs`.  The source's `asset_symbol`
string is kept structured (see the header comment). -/
structure Order where
  order_id : Nat
  asset_pair : AssetPair
  amount : Amount
  limit_price : Option ℚ
  filled_quantity : ℚ
  average_fill_price : Option ℚ
  status : OrderStatus
  type_ : OrderType
  side : OrderSide
deriving DecidableEq, Repr

/-- Struct `OrderRequest` from `src/api/request.rs`. -/
structure OrderRequest where
  asset_pair : AssetPair
  amount : Amount
  limit_price : Option ℚ
  side : OrderSide
deriving DecidableEq, Repr

/-- The broker's typed failures (the source uses `anyhow` strings). -/
inductive BrokerErr
  | missingCurrencyNotionalAsset (a : Asset)
  | invalidNotionalAsset (a : Asset)
  | noNotionalPerUnit (p : AssetPair)
  | insufficientBuyingPower (a : Asset)
  | orderNotFound
deriving DecidableEq, Repr

/-- Result of a `&mut self` broker method: `ok`, a returned `Err`, or a
Rust panic (an `unwrap()` of `None` in the source). -/
inductive Outcome (α : Type)
  | ok (a : α)
  | err (e : BrokerErr)
  | panicked
deriving DecidableEq, Repr

/-- Association-list lookup, modelling `HashMap::get`. -/
def alGet {κ ν : Type} [DecidableEq κ] : List (κ × ν) → κ → Option ν
  | [], _ => none
  | (k, v) :: rest, key => if k = key then some v else alGet rest key

/-- Association-list insert-or-overwrite, modelling `HashMap::insert`. -/
def alInsert {κ ν : Type} [DecidableEq κ] : List (κ × ν) → κ → ν → List (κ × ν)
  | [], key, v => [(key, v)]
  | (k, w) :: rest, key, v =>
    if k = key then (key, v) :: rest else (k, w) :: alInsert rest key v

/-- State of `SimulatedBroker`. -/
structure Broker where
  currency : Asset
  notional_assets : List Asset
  buying_power_balances : List (Asset × ℚ)
  orders : List (Nat × Order)
  notional_per_unit : List (AssetPair × ℚ)
  balances : List (Asset × ℚ)
deriving DecidableEq, Repr

/-- Helper `SimulatedBroker::get_asset_value`: map lookup defaulting to 0. -/
def getAssetValue (values : List (Asset × ℚ)) (asset : Asset) : ℚ :=
  (alGet values asset).getD 0

/-- Helper `SimulatedBroker::update_value`: `insert(asset, previous + delta)`. -/
def updateValue (values : List (Asset × ℚ)) (asset : Asset) (delta : ℚ) :
    List (Asset × ℚ) :=
  alInsert values asset ((alGet values asset).getD 0 + delta)

/-- Constructor `SimulatedBroker::new`. -/
def Broker.new (currency : Asset) (notional_assets : List Asset)
    (starting_balances : List (Asset × ℚ)) : Except BrokerErr Broker :=
  if currency ∈ notional_assets then
    .ok { currency := currency, notional_assets := notional_assets,
          orders := [], notional_per_unit := [],
          buying_power_balances := starting_balances,
          balances := starting_balances }
  else
    .error (.missingCurrencyNotionalAsset currency)

def Broker.get_buying_power (b : Broker) (asset : Asset) : ℚ :=
  getAssetValue b.buying_power_balances asset

def Broker.get_balance (b : Broker) (asset : Asset) : ℚ :=
  getAssetValue b.balances asset

def Broker.update_balance (b : Broker) (asset : Asset) (delta : ℚ) : Broker :=
  { b with balances := updateValue b.balances asset delta }

def Broker.update_buying_power (b : Broker) (asset : Asset) (delta : ℚ) : Broker :=
  { b with buying_power_balances := updateValue b.buying_power_balances asset delta }

/-- Validation `SimulatedBroker::check_notional`. -/
def Broker.check_notional (b : Broker) (asset_pair : AssetPair) :
    Except BrokerErr Unit :=
  if asset_pair.notional_asset ∈ b.notional_assets then .ok ()
  else .error (.invalidNotionalAsset asset_pair.notional_asset)

/-- Lookup `SimulatedBroker::get_notional_per_unit`. -/
def Broker.get_notional_per_unit (b : Broker) (asset_pair : AssetPair) :
    Except BrokerErr ℚ :=
  match b.check_notional asset_pair with
  | .error e => .error e
  | .ok _ =>
    match alGet b.notional_per_unit asset_pair with
    | some v => .ok v
    | none => .error (.noNotionalPerUnit asset_pair)

/-- Method `SimulatedBroker::get_current_quantity_and_notional`.  The source
divides `notional / notional_per_unit` with `num_decimal::Num`, which
panics on a zero divisor; division here is `ℚ`'s total division and the
theorems that depend on the quotient carry nonzero hypotheses. -/
def Broker.get_current_quantity_and_notional (b : Broker)
    (asset_pair : AssetPair) (amount : Amount) : Except BrokerErr (ℚ × ℚ) :=
  match b.get_notional_per_unit asset_pair with
  | .error e => .error e
  | .ok notional_per_unit =>
    let quantity : ℚ :=
      match amount with
      | .quantity q => q
      | .notional n => n / notional_per_unit
    let notional : ℚ :=
      match amount with
      | .quantity q => q * notional_per_unit
      | .notional n => n
    .ok (quantity, notional)

/-- Method `SimulatedBroker::get_asset_and_buying_power_needed`. -/
def Broker.get_asset_and_buying_power_needed (b : Broker) (order : Order) :
    Except BrokerErr (Asset × ℚ) :=
  match b.get_current_quantity_and_notional order.asset_pair order.amount with
  | .error e => .error e
  | .ok (quantity, notional) =>
    if order.side = .buy then
      match order.limit_price with
      | some limit_price => .ok (order.asset_pair.notional_asset, limit_price * quantity)
      | none => .ok (order.asset_pair.notional_asset, notional)
    else
      .ok (order.asset_pair.quantity_asset, quantity)

/-- Method `SimulatedBroker::queue_order`: reservation check, buying-power
deduction, order insertion — in that source order. -/
def Broker.queue_order (b : Broker) (order : Order) : Outcome Unit × Broker :=
  match b.get_asset_and_buying_power_needed order with
  | .error e => (.err e, b)
  | .ok (asset, buying_power_needed) =>
    if b.get_buying_power asset < buying_power_needed then
      (.err (.insufficientBuyingPower asset), b)
    else
      let b1 := b.update_buying_power asset (-buying_power_needed)
      (.ok (), { b1 with orders := alInsert b1.orders order.order_id order })

/-- The ledger movements in the body of
`SimulatedBroker::fill_order_immediately`: buy/sell settlement and, for
a limit order, the buying-power refund `limit_price*quantity - notional`. -/
def fillLedger (b : Broker) (order : Order) (quantity notional : ℚ) : Broker :=
  let notional_asset := order.asset_pair.notional_asset
  let quantity_asset := order.asset_pair.quantity_asset
  if order.side = .buy then
    let x := b.update_balance notional_asset (-notional)
    let x := x.update_balance quantity_asset quantity
    let x := x.update_buying_power quantity_asset quantity
    match order.limit_price with
    | some limit_price =>
      x.update_buying_power notional_asset (limit_price * quantity - notional)
    | none => x
  else
    let x := b.update_balance notional_asset notional
    let x := x.update_buying_power notional_asset notional
    x.update_balance quantity_asset (-quantity)

/-- The order value written back at the end of
`fill_order_immediately`. -/
def filledOrder (order : Order) (quantity notional : ℚ) : Order :=
  { order with filled_quantity := quantity,
               average_fill_price := some (notional / quantity),
               status := .filled }

/-- Method `SimulatedBroker::fill_order_immediately`. -/
def Broker.fill_order_immediately (b : Broker) (order_id : Nat) :
    Outcome Unit × Broker :=
  match alGet b.orders order_id with
  | none => (.panicked, b)
  | some order =>
    match b.get_current_quantity_and_notional order.asset_pair order.amount with
    | .error e => (.err e, b)
    | .ok (quantity, notional) =>
      let b1 := fillLedger b order quantity notional
      (.ok (), { b1 with orders :=
                   alInsert b1.orders order_id (filledOrder order quantity notional) })

/-- Method `SimulatedBroker::maybe_update_order`.  Note: the source fetches the
order with `.unwrap()`, and unwraps `order.limit_price` with no status
or type check — both unwraps are modelled as `.panicked`. -/
def Broker.maybe_update_order (b : Broker) (order_id : Nat) :
    Outcome Unit × Broker :=
  match alGet b.orders order_id with
  | none => (.panicked, b)
  | some order =>
    match b.get_notional_per_unit order.asset_pair with
    | .error e => (.err e, b)
    | .ok current_price =>
      match order.limit_price with
      | none => (.panicked, b)
      | some limit_price =>
        if current_price = limit_price ∨
            ((order.side = .buy) ↔ (current_price < limit_price)) then
          b.fill_order_immediately order_id
        else
          (.ok (), b)

/-- The `New` order value constructed at the top of
`SimulatedBroker::place_order` (type derived from the presence of a
limit price). -/
def mkOrder (order_req : OrderRequest) (order_id : Nat) : Order :=
  { order_id := order_id, asset_pair := order_req.asset_pair,
    amount := order_req.amount, limit_price := order_req.limit_price,
    filled_quantity := 0, average_fill_price := none,
    status := .new,
    type_ := match order_req.limit_price with
             | none => .market
             | some _ => .limit,
    side := order_req.side }

/-- Method `SimulatedBroker::place_order`.  The fresh order id is a parameter
(the source draws a UUID). -/
def Broker.place_order (b : Broker) (order_req : OrderRequest)
    (order_id : Nat) : Outcome Nat × Broker :=
  let order : Order := mkOrder order_req order_id
  match b.queue_order order with
  | (.err e, b1) => (.err e, b1)
  | (.panicked, b1) => (.panicked, b1)
  | (.ok _, b1) =>
    match (if order.limit_price.isSome then b1.maybe_update_order order_id
           else b1.fill_order_immediately order_id) with
    | (.ok _, b2) => (.ok order_id, b2)
    | (.err e, b2) => (.err e, b2)
    | (.panicked, b2) => (.panicked, b2)

/-- The re-evaluation loop body of `SimulatedBroker::set_notional_per_unit`:
`for order_id in order_ids { self.maybe_update_order(&order_id)? }`. -/
def Broker.snpuLoop : Broker → List Nat → Outcome Unit × Broker
  | b, [] => (.ok (), b)
  | b, order_id :: rest =>
    match b.maybe_update_order order_id with
    | (.ok _, b') => b'.snpuLoop rest
    | (.err e, b') => (.err e, b')
    | (.panicked, b') => (.panicked, b')

/-- Method `SimulatedBroker::set_notional_per_unit`: validate the notional
asset, store the price, then run `maybe_update_order` over every key of
the order table (the source collects the `HashSet` of keys; here the
keys are taken in table order). -/
def Broker.set_notional_per_unit (b : Broker) (asset_pair : AssetPair)
    (notional_per_unit : ℚ) : Outcome Unit × Broker :=
  match b.check_notional asset_pair with
  | .error e => (.err e, b)
  | .ok _ =>
    let b1 := { b with notional_per_unit :=
                  alInsert b.notional_per_unit asset_pair notional_per_unit }
    b1.snpuLoop (b1.orders.map Prod.fst)

/-! ### Map lemmas -/

theorem alGet_alInsert {κ ν : Type} [DecidableEq κ]
    (m : List (κ × ν)) (k k' : κ) (v : ν) :
    alGet (alInsert m k v) k' = if k = k' then some v else alGet m k' := by
  induction m with
  | nil => simp [alGet, alInsert]
  | cons kv rest ih =>
    obtain ⟨k0, v0⟩ := kv
    by_cases h0 : k0 = k
    · subst h0
      simp only [alInsert, if_pos rfl, alGet]
      by_cases h1 : k0 = k' <;> simp [h1]
    · simp only [alInsert, if_neg h0, alGet, ih]
      by_cases h1 : k0 = k'
      · subst h1
        have hne : k ≠ k0 := fun h => h0 h.symm
        simp [hne]
      · simp [h1]

theorem getAssetValue_updateValue (m : List (Asset × ℚ)) (a a' : Asset) (d : ℚ) :
    getAssetValue (updateValue m a d) a' =
      if a = a' then getAssetValue m a + d else getAssetValue m a' := by
  simp only [getAssetValue, updateValue, alGet_alInsert]
  by_cases h : a = a' <;> simp [h]

/-! ### Broker helper lemmas -/

/-- Lemma: `get_notional_per_unit` reads only the notional-asset set and the
price table. -/
theorem get_npu_congr (b b' : Broker) (p : AssetPair)
    (h1 : b'.notional_assets = b.notional_assets)
    (h2 : b'.notional_per_unit = b.notional_per_unit) :
    b'.get_notional_per_unit p = b.get_notional_per_unit p := by
  unfold Broker.get_notional_per_unit Broker.check_notional
  rw [h1, h2]

theorem gcqan_of_npu {b : Broker} {p : AssetPair} {c : ℚ} (amt : Amount)
    (h : b.get_notional_per_unit p = .ok c) :
    b.get_current_quantity_and_notional p amt =
      .ok (match amt with
           | .quantity q => q
           | .notional n => n / c,
           match amt with
           | .quantity q => q * c
           | .notional n => n) := by
  unfold Broker.get_current_quantity_and_notional
  rw [h]

theorem fillLedger_fields (b : Broker) (o : Order) (q n : ℚ) :
    (fillLedger b o q n).notional_assets = b.notional_assets ∧
    (fillLedger b o q n).notional_per_unit = b.notional_per_unit ∧
    (fillLedger b o q n).currency = b.currency ∧
    (fillLedger b o q n).orders = b.orders := by
  unfold fillLedger
  refine ⟨?_, ?_, ?_, ?_⟩ <;> (split <;> (try split) <;> rfl)

/-- Equation lemma: a fill with resolvable pricing succeeds and produces
the settled ledger plus the overwritten, now-`Filled`, order. -/
theorem fill_eq_ok {b : Broker} {oid : Nat} {order : Order} {q n : ℚ}
    (ho : alGet b.orders oid = some order)
    (hq : b.get_current_quantity_and_notional order.asset_pair order.amount
            = .ok (q, n)) :
    b.fill_order_immediately oid =
      (.ok (), { fillLedger b order q n with
                 orders := alInsert (fillLedger b order q n).orders oid
                             (filledOrder order q n) }) := by
  simp only [Broker.fill_order_immediately, ho, hq]

theorem fill_pricing_stable (b : Broker) (oid : Nat) :
    (b.fill_order_immediately oid).2.notional_assets = b.notional_assets ∧
    (b.fill_order_immediately oid).2.notional_per_unit = b.notional_per_unit := by
  unfold Broker.fill_order_immediately
  split
  · exact ⟨rfl, rfl⟩
  · rename_i order ho
    split
    · exact ⟨rfl, rfl⟩
    · rename_i q n hq
      exact ⟨(fillLedger_fields b order q n).1, (fillLedger_fields b order q n).2.1⟩

/-- Equation lemma: `maybe_update_order` on a priced limit order reduces
to the source's fill-check conditional. -/
theorem maybe_update_eq_cond {b : Broker} {oid : Nat} {order : Order}
    {current limit : ℚ}
    (ho : alGet b.orders oid = some order)
    (hc : b.get_notional_per_unit order.asset_pair = .ok current)
    (hl : order.limit_price = some limit) :
    b.maybe_update_order oid =
      if current = limit ∨ ((order.side = .buy) ↔ current < limit) then
        b.fill_order_immediately oid
      else (.ok (), b) := by
  simp only [Broker.maybe_update_order, ho, hc, hl]

/-- Equation lemma: `maybe_update_order` on a priced market order hits
`order.limit_price.clone().unwrap()` and panics. -/
theorem maybe_update_eq_market {b : Broker} {oid : Nat} {order : Order}
    {current : ℚ}
    (ho : alGet b.orders oid = some order)
    (hc : b.get_notional_per_unit order.asset_pair = .ok current)
    (hl : order.limit_price = none) :
    b.maybe_update_order oid = (.panicked, b) := by
  simp only [Broker.maybe_update_order, ho, hc, hl]

theorem maybe_update_pricing_stable (b : Broker) (oid : Nat) :
    (b.maybe_update_order oid).2.notional_assets = b.notional_assets ∧
    (b.maybe_update_order oid).2.notional_per_unit = b.notional_per_unit := by
  unfold Broker.maybe_update_order
  split
  · exact ⟨rfl, rfl⟩
  · rename_i order ho
    split
    · exact ⟨rfl, rfl⟩
    · rename_i current hc
      split
      · exact ⟨rfl, rfl⟩
      · rename_i limit hl
        split
        · exact fill_pricing_stable b oid
        · exact ⟨rfl, rfl⟩

/-- The source's fill condition
`current == limit || ((side == Buy) == (current < limit))`
is the spec's case split: fill at equality, buy strictly below the
limit, sell strictly above it. -/
theorem fillCond_equiv (side : OrderSide) (current limit : ℚ) :
    (current = limit ∨ ((side = OrderSide.buy) ↔ current < limit)) ↔
      (current = limit ∨ (side = OrderSide.buy ∧ current < limit) ∨
        (side = OrderSide.sell ∧ limit < current)) := by
  cases side
  · constructor
    · rintro (h | h)
      · exact Or.inl h
      · exact Or.inr (Or.inl ⟨rfl, h.mp rfl⟩)
    · rintro (h | ⟨_, h⟩ | ⟨h, _⟩)
      · exact Or.inl h
      · exact Or.inr (iff_of_true rfl h)
      · exact absurd h (by decide)
  · constructor
    · rintro (h | h)
      · exact Or.inl h
      · have hnot : ¬ current < limit := fun hlt => by
          have := h.mpr hlt
          exact absurd this (by decide)
        rcases lt_trichotomy current limit with h1 | h1 | h1
        · exact absurd h1 hnot
        · exact Or.inl h1
        · exact Or.inr (Or.inr ⟨rfl, h1⟩)
    · rintro (h | ⟨h, _⟩ | ⟨_, h⟩)
      · exact Or.inl h
      · exact absurd h (by decide)
      · exact Or.inr (iff_of_false (by decide) (lt_asymm h))

/-- C5: for a pending (status `New`) limit order with limit price
`limit` and current price `current` for its pair, the fill-check fills
the order exactly when `current = limit`, or the side is Buy and
`current < limit`, or the side is Sell and `current > limit`; otherwise
the broker is untouched and the order remains `New`. -/
theorem maybe_update_fillCheck (b : Broker) (oid : Nat) (o : Order)
    (current limit : ℚ)
    (ho : alGet b.orders oid = some o)
    (hstatus : o.status = .new)
    (htype : o.type_ = .limit)
    (hl : o.limit_price = some limit)
    (hcur : b.get_notional_per_unit o.asset_pair = .ok current) :
    ∃ b', b.maybe_update_order oid = (.ok (), b') ∧
      ((current = limit ∨ (o.side = .buy ∧ current < limit) ∨
          (o.side = .sell ∧ limit < current)) →
        ∃ o', alGet b'.orders oid = some o' ∧ o'.status = .filled) ∧
      (¬(current = limit ∨ (o.side = .buy ∧ current < limit) ∨
          (o.side = .sell ∧ limit < current)) →
        b' = b ∧ alGet b'.orders oid = some o ∧ o.status = .new) := by
  rw [maybe_update_eq_cond ho hcur hl]
  by_cases hcond : current = limit ∨ ((o.side = .buy) ↔ current < limit)
  · rw [if_pos hcond]
    rw [fill_eq_ok ho (gcqan_of_npu o.amount hcur)]
    refine ⟨_, rfl, ?_, ?_⟩
    · intro _
      refine ⟨filledOrder o
        (match o.amount with
         | .quantity q => q
         | .notional n => n / current)
        (match o.amount with
         | .quantity q => q * current
         | .notional n => n), ?_, rfl⟩
      rw [alGet_alInsert]
      simp
    · intro hneg
      exact absurd ((fillCond_equiv o.side current limit).mp hcond) hneg
  · rw [if_neg hcond]
    refine ⟨b, rfl, ?_, ?_⟩
    · intro hpos
      exact absurd ((fillCond_equiv o.side current limit).mpr hpos) hcond
    · intro _
      exact ⟨rfl, ho, hstatus⟩

/-- Concrete assets and pair for witnesses. -/
def gbp : Asset := ['G', 'B', 'P']

def usd : Asset := ['U', 'S', 'D']

def gbpUsd : AssetPair := { notional_asset := usd, quantity_asset := gbp }

/-- A pending limit buy of 10 GBP at limit price 2. -/
def pendingLimitBuy : Order :=
  { order_id := 0, asset_pair := gbpUsd,
    amount := .quantity 10, limit_price := some 2,
    filled_quantity := 0, average_fill_price := none,
    status := .new, type_ := .limit, side := .buy }

/-- Broker holding `pendingLimitBuy` with the GBP/USD price at 1. -/
def brokerC5 : Broker :=
  { currency := usd, notional_assets := [usd],
    buying_power_balances := [(usd, 20)],
    orders := [(0, pendingLimitBuy)],
    notional_per_unit := [(gbpUsd, 1)],
    balances := [(usd, 100)] }

theorem maybe_update_fillCheck_witness :
    ∃ b', brokerC5.maybe_update_order 0 = (.ok (), b') ∧
      (((1:ℚ) = 2 ∨
          (pendingLimitBuy.side = .buy ∧ (1:ℚ) < 2) ∨
          (pendingLimitBuy.side = .sell ∧ (2:ℚ) < 1)) →
        ∃ o', alGet b'.orders 0 = some o' ∧ o'.status = .filled) ∧
      (¬((1:ℚ) = 2 ∨
          (pendingLimitBuy.side = .buy ∧ (1:ℚ) < 2) ∨
          (pendingLimitBuy.side = .sell ∧ (2:ℚ) < 1)) →
        b' = brokerC5 ∧ alGet b'.orders 0 = some pendingLimitBuy ∧
          pendingLimitBuy.status = .new) :=
  maybe_update_fillCheck brokerC5 0 pendingLimitBuy 1 2
    (by rfl) (by rfl) (by rfl) (by rfl) (by rfl)

/-! ### `place_order` error paths (C3) -/

/-- A `queue_order` that returns `Err` has not touched the state: all
its failure exits precede the buying-power deduction and the order
insertion. -/
theorem queue_err_unchanged {b : Broker} {o : Order} {e : BrokerErr}
    {b' : Broker} (h : b.queue_order o = (.err e, b')) : b' = b := by
  unfold Broker.queue_order at h
  split at h
  · injection h with h1 h2
    exact h2.symm
  · split at h
    · injection h with h1 h2
      exact h2.symm
    · injection h with h1 h2
      exact Outcome.noConfusion h1

/-- A successful `queue_order` leaves the pricing data untouched and
has inserted the order at its id. -/
theorem queue_ok_spec {b : Broker} {o : Order} {b1 : Broker}
    (h : b.queue_order o = (.ok (), b1)) :
    b1.notional_assets = b.notional_assets ∧
    b1.notional_per_unit = b.notional_per_unit ∧
    alGet b1.orders o.order_id = some o := by
  unfold Broker.queue_order at h
  split at h
  · exact Outcome.noConfusion (congrArg Prod.fst h)
  · split at h
    · exact Outcome.noConfusion (congrArg Prod.fst h)
    · injection h with h1 h2
      subst h2
      refine ⟨rfl, rfl, ?_⟩
      rw [alGet_alInsert]
      simp

/-- If `get_asset_and_buying_power_needed` resolved, the order's pair
has a price. -/
theorem gabpn_ok_npu {b : Broker} {o : Order} {an : Asset × ℚ}
    (h : b.get_asset_and_buying_power_needed o = .ok an) :
    ∃ c, b.get_notional_per_unit o.asset_pair = .ok c := by
  unfold Broker.get_asset_and_buying_power_needed at h
  split at h
  · exact Except.noConfusion h
  · rename_i q n heq
    unfold Broker.get_current_quantity_and_notional at heq
    split at heq
    · exact Except.noConfusion heq
    · rename_i c hc
      exact ⟨c, hc⟩

/-- If `queue_order` succeeded, the order's pair has a price (in the
pre-state). -/
theorem queue_ok_npu {b : Broker} {o : Order} {b1 : Broker}
    (h : b.queue_order o = (.ok (), b1)) :
    ∃ c, b.get_notional_per_unit o.asset_pair = .ok c := by
  unfold Broker.queue_order at h
  split at h
  · exact Outcome.noConfusion (congrArg Prod.fst h)
  · rename_i an heq
    exact gabpn_ok_npu heq

/-- Once `queue_order` has succeeded, the immediate fill / fill-check
stage of `place_order` cannot return `Err`: the price lookup it repeats
is the one `queue_order` already resolved, on an unchanged price
table. -/
theorem place_second_stage_ok {b : Broker} {req : OrderRequest} {oid : Nat}
    {b1 : Broker} (hq : b.queue_order (mkOrder req oid) = (.ok (), b1)) :
    ∃ b2, (if (mkOrder req oid).limit_price.isSome then
             b1.maybe_update_order oid
           else b1.fill_order_immediately oid) = (.ok (), b2) := by
  obtain ⟨c, hc⟩ := queue_ok_npu hq
  obtain ⟨hna, hnp, ho0⟩ := queue_ok_spec hq
  have ho : alGet b1.orders oid = some (mkOrder req oid) := ho0
  have hc1 : b1.get_notional_per_unit (mkOrder req oid).asset_pair = .ok c := by
    rw [get_npu_congr b b1 _ hna hnp]
    exact hc
  cases hl : (mkOrder req oid).limit_price with
  | none =>
    simp only [Option.isSome_none, Bool.false_eq_true, if_false]
    exact ⟨_, fill_eq_ok ho (gcqan_of_npu _ hc1)⟩
  | some lp =>
    simp only [Option.isSome_some, if_true]
    rw [maybe_update_eq_cond ho hc1 hl]
    by_cases hcond : c = lp ∨ (((mkOrder req oid).side = .buy) ↔ c < lp)
    · rw [if_pos hcond]
      exact ⟨_, fill_eq_ok ho (gcqan_of_npu _ hc1)⟩
    · rw [if_neg hcond]
      exact ⟨b1, rfl⟩

/-- C3: whenever `place_order` returns an error (no price for the pair,
invalid notional asset, or insufficient buying power), the broker state
observable afterwards is exactly the state before the call — no partial
reservation, no inserted order. -/
theorem place_order_err_no_state_change (b : Broker) (req : OrderRequest)
    (oid : Nat) (e : BrokerErr) (b' : Broker)
    (h : b.place_order req oid = (.err e, b')) : b' = b := by
  simp only [Broker.place_order] at h
  split at h
  · rename_i e0 b1 heq
    injection h with h1 h2
    exact h2 ▸ queue_err_unchanged heq
  · rename_i b1 heq
    injection h with h1 h2
    exact Outcome.noConfusion h1
  · rename_i u b1 heq
    cases u
    obtain ⟨b2, hsecond⟩ := place_second_stage_ok heq
    split at h
    · injection h with h1 h2
      exact Outcome.noConfusion h1
    · rename_i e2 b2' heq2
      rw [hsecond] at heq2
      injection heq2 with h1 h2
      exact Outcome.noConfusion h1
    · rename_i b2' heq2
      rw [hsecond] at heq2
      injection heq2 with h1 h2
      exact Outcome.noConfusion h1

/-- Broker with no price set for GBP/USD. -/
def brokerC3 : Broker :=
  { currency := usd, notional_assets := [usd],
    buying_power_balances := [(usd, 2)],
    orders := [],
    notional_per_unit := [],
    balances := [(usd, 2)] }

/-- A market buy of 10 GBP on the unpriced pair. -/
def reqC3 : OrderRequest :=
  { asset_pair := gbpUsd, amount := .quantity 10,
    limit_price := none, side := .buy }

theorem place_order_err_no_state_change_witness :
    (brokerC3.place_order reqC3 1).2 = brokerC3 :=
  place_order_err_no_state_change brokerC3 reqC3 1
    (.noNotionalPerUnit gbpUsd) (brokerC3.place_order reqC3 1).2 (by rfl)

/-! ### Buying-power accounting (C4, C6) -/

theorem get_bp_update_bp (b : Broker) (a a' : Asset) (d : ℚ) :
    (b.update_buying_power a d).get_buying_power a' =
      if a = a' then b.get_buying_power a + d else b.get_buying_power a' :=
  getAssetValue_updateValue b.buying_power_balances a a' d

theorem get_bp_update_bal (b : Broker) (a a' : Asset) (d : ℚ) :
    (b.update_balance a d).get_buying_power a' = b.get_buying_power a' := rfl

theorem gcqan_congr (b b' : Broker) (p : AssetPair) (amt : Amount)
    (h1 : b'.notional_assets = b.notional_assets)
    (h2 : b'.notional_per_unit = b.notional_per_unit) :
    b'.get_current_quantity_and_notional p amt =
      b.get_current_quantity_and_notional p amt := by
  unfold Broker.get_current_quantity_and_notional
  rw [get_npu_congr b b' p h1 h2]

theorem fillLedger_bp_buy_limit {o : Order} {lp : ℚ} (b : Broker) (q n : ℚ)
    (hside : o.side = .buy) (hl : o.limit_price = some lp) (a : Asset) :
    (fillLedger b o q n).get_buying_power a =
      (if o.asset_pair.notional_asset = a then
        (if o.asset_pair.quantity_asset = a then b.get_buying_power a + q
         else b.get_buying_power a) + (lp * q - n)
       else
        (if o.asset_pair.quantity_asset = a then b.get_buying_power a + q
         else b.get_buying_power a)) := by
  unfold fillLedger
  simp only [hside, hl, eq_self_iff_true, if_true]
  simp only [get_bp_update_bp, get_bp_update_bal]
  split_ifs <;> simp_all

theorem fillLedger_bp_buy_market {o : Order} (b : Broker) (q n : ℚ)
    (hside : o.side = .buy) (hl : o.limit_price = none) (a : Asset) :
    (fillLedger b o q n).get_buying_power a =
      (if o.asset_pair.quantity_asset = a then b.get_buying_power a + q
       else b.get_buying_power a) := by
  unfold fillLedger
  simp only [hside, hl, eq_self_iff_true, if_true]
  simp only [get_bp_update_bp, get_bp_update_bal]
  split_ifs <;> simp_all

theorem fillLedger_bp_sell {o : Order} (b : Broker) (q n : ℚ)
    (hside : ¬ o.side = .buy) (a : Asset) :
    (fillLedger b o q n).get_buying_power a =
      (if o.asset_pair.notional_asset = a then b.get_buying_power a + n
       else b.get_buying_power a) := by
  unfold fillLedger
  simp only [if_neg hside]
  simp only [get_bp_update_bp, get_bp_update_bal]
  split_ifs <;> simp_all

/-- A successful `queue_order` run: the reservation check passed and the
buying power moved only at the reserve asset, by exactly `-needed`. -/
theorem queue_ok_bp {b : Broker} {o : Order} {b1 : Broker}
    (h : b.queue_order o = (.ok (), b1)) :
    ∃ asset needed, b.get_asset_and_buying_power_needed o = .ok (asset, needed) ∧
      ¬ b.get_buying_power asset < needed ∧
      ∀ a, b1.get_buying_power a =
        if asset = a then b.get_buying_power a - needed
        else b.get_buying_power a := by
  unfold Broker.queue_order at h
  split at h
  · exact Outcome.noConfusion (congrArg Prod.fst h)
  · rename_i asset needed heq
    split at h
    · exact Outcome.noConfusion (congrArg Prod.fst h)
    · rename_i hnlt
      injection h with h1 h2
      subst h2
      refine ⟨asset, needed, heq, hnlt, fun a => ?_⟩
      show (b.update_buying_power asset (-needed)).get_buying_power a = _
      rw [get_bp_update_bp]
      split_ifs with haa
      · subst haa
        ring
      · rfl

/-- Lemma: `queue_order` success keeps every non-negative buying-power entry
non-negative (the reserve asset by the reservation check, the rest
untouched). -/
theorem queue_ok_bp_nonneg {b : Broker} {o : Order} {b1 : Broker}
    (h : b.queue_order o = (.ok (), b1)) :
    ∀ a, 0 ≤ b.get_buying_power a → 0 ≤ b1.get_buying_power a := by
  obtain ⟨asset, needed, hg, hnlt, hf⟩ := queue_ok_bp h
  intro a ha
  rw [hf a]
  split_ifs with haa
  · subst haa
    have := not_lt.mp hnlt
    linarith
  · exact ha

/-- A fill whose quantity, notional and (for a buy limit) refund are
non-negative keeps every non-negative buying-power entry
non-negative. -/
theorem fill_bp_nonneg {b1 : Broker} {oid : Nat} {o : Order} {q n : ℚ}
    (ho : alGet b1.orders oid = some o)
    (hgc : b1.get_current_quantity_and_notional o.asset_pair o.amount
             = .ok (q, n))
    (hq0 : 0 ≤ q) (hn0 : 0 ≤ n)
    (hrefund : ∀ lp, o.limit_price = some lp → o.side = .buy →
                 0 ≤ lp * q - n) :
    ∀ a, 0 ≤ b1.get_buying_power a →
      0 ≤ (b1.fill_order_immediately oid).2.get_buying_power a := by
  intro a ha
  rw [fill_eq_ok ho hgc]
  show 0 ≤ (fillLedger b1 o q n).get_buying_power a
  by_cases hside : o.side = .buy
  · cases hl : o.limit_price with
    | some lp =>
      rw [fillLedger_bp_buy_limit b1 q n hside hl a]
      have hr := hrefund lp hl hside
      split_ifs <;> linarith
    | none =>
      rw [fillLedger_bp_buy_market b1 q n hside hl a]
      split_ifs <;> linarith
  · rw [fillLedger_bp_sell b1 q n hside a]
    split_ifs <;> linarith

/-- After a successful `queue_order`, the fill stage of `place_order`
succeeds and keeps non-negative buying power non-negative, provided the
computed quantity and notional are non-negative and consistent with the
current price. -/
theorem place_second_stage_bp {b : Broker} {req : OrderRequest} {oid : Nat}
    {b1 : Broker} {c q n : ℚ}
    (hq : b.queue_order (mkOrder req oid) = (.ok (), b1))
    (hcur : b.get_notional_per_unit req.asset_pair = .ok c)
    (hgc : b.get_current_quantity_and_notional req.asset_pair req.amount
             = .ok (q, n))
    (hq0 : 0 ≤ q) (hn0 : 0 ≤ n) (hnq : n = q * c) :
    ∃ b2, (if (mkOrder req oid).limit_price.isSome then
             b1.maybe_update_order oid
           else b1.fill_order_immediately oid) = (.ok (), b2) ∧
      ∀ a, 0 ≤ b1.get_buying_power a → 0 ≤ b2.get_buying_power a := by
  obtain ⟨hna, hnp, ho0⟩ := queue_ok_spec hq
  have ho : alGet b1.orders oid = some (mkOrder req oid) := ho0
  have hcur1 : b1.get_notional_per_unit (mkOrder req oid).asset_pair = .ok c := by
    rw [get_npu_congr b b1 _ hna hnp]
    exact hcur
  have hgc1 : b1.get_current_quantity_and_notional (mkOrder req oid).asset_pair
      (mkOrder req oid).amount = .ok (q, n) := by
    rw [gcqan_congr b b1 _ _ hna hnp]
    exact hgc
  cases hl : (mkOrder req oid).limit_price with
  | none =>
    simp only [Option.isSome_none, Bool.false_eq_true, if_false]
    refine ⟨_, fill_eq_ok ho hgc1, ?_⟩
    intro a ha
    have hrf : ∀ lp, (mkOrder req oid).limit_price = some lp →
        (mkOrder req oid).side = .buy → 0 ≤ lp * q - n := by
      intro lp hlp _
      rw [hl] at hlp
      exact Option.noConfusion hlp
    have hmain := fill_bp_nonneg ho hgc1 hq0 hn0 hrf a ha
    rw [fill_eq_ok ho hgc1] at hmain
    exact hmain
  | some lp =>
    simp only [Option.isSome_some, if_true]
    rw [maybe_update_eq_cond ho hcur1 hl]
    by_cases hcond : c = lp ∨ (((mkOrder req oid).side = .buy) ↔ c < lp)
    · rw [if_pos hcond]
      refine ⟨_, fill_eq_ok ho hgc1, ?_⟩
      intro a ha
      have hrf : ∀ lp', (mkOrder req oid).limit_price = some lp' →
          (mkOrder req oid).side = .buy → 0 ≤ lp' * q - n := by
        intro lp' hlp' hbuy
        rw [hl] at hlp'
        injection hlp' with he
        subst he
        have hcle : c ≤ lp := by
          rcases hcond with h | h
          · exact le_of_eq h
          · exact le_of_lt (h.mp hbuy)
        have hrw : lp * q - n = q * (lp - c) := by
          rw [hnq]
          ring
        rw [hrw]
        exact mul_nonneg hq0 (by linarith)
      have hmain := fill_bp_nonneg ho hgc1 hq0 hn0 hrf a ha
      rw [fill_eq_ok ho hgc1] at hmain
      exact hmain
    · rw [if_neg hcond]
      exact ⟨b1, rfl, fun a ha => ha⟩

theorem usd_ne_gbp : ¬ (usd = gbp) := by decide

theorem gbp_ne_usd : ¬ (gbp = usd) := by decide

/-- Broker pricing GBP/USD at 1 with zero balances. -/
def brokerC4 : Broker :=
  { currency := usd, notional_assets := [usd],
    buying_power_balances := [(usd, 0)],
    orders := [],
    notional_per_unit := [(gbpUsd, 1)],
    balances := [(usd, 0)] }

/-- A market buy for a *negative* quantity of GBP. -/
def reqC4 : OrderRequest :=
  { asset_pair := gbpUsd, amount := .quantity (-5),
    limit_price := none, side := .buy }

/-- C4, counterexample to the claim as stated: placing a market buy of
quantity −5 at price 1 *succeeds* (its reservation of −5 passes the
`buying_power < needed` check) and drives `buying_power[GBP]` from 0 to
−5, because the fill credits the quantity (−5) to the quantity asset
with no sign check. -/
theorem place_order_bp_nonneg_counterexample :
    (brokerC4.place_order reqC4 0).1 = .ok 0 ∧
    brokerC4.get_buying_power gbp = 0 ∧
    (brokerC4.place_order reqC4 0).2.get_buying_power gbp = -5 := by
  refine ⟨?_, ?_, ?_⟩ <;>
    norm_num [Broker.place_order, Broker.queue_order, mkOrder,
      Broker.get_asset_and_buying_power_needed,
      Broker.get_current_quantity_and_notional, Broker.get_notional_per_unit,
      Broker.check_notional, Broker.get_buying_power, getAssetValue, alGet,
      alInsert, Broker.update_buying_power, Broker.update_balance, updateValue,
      Broker.fill_order_immediately, fillLedger, filledOrder,
      Broker.maybe_update_order, brokerC4, reqC4, gbpUsd, usd_ne_gbp,
      gbp_ne_usd]

/-- C4 (amended): when the pair's current price is positive and the
requested amount is non-negative, a successful `place_order` leaves
every buying-power entry that was non-negative still non-negative; and
an order whose reservation would push `buying_power[reserve_asset]`
negative is rejected with the insufficient-buying-power error, with no
state change. -/
theorem place_order_bp_nonneg (b : Broker) (req : OrderRequest) (oid : Nat)
    (c : ℚ)
    (hcur : b.get_notional_per_unit req.asset_pair = .ok c)
    (hc : 0 < c)
    (hamt : match req.amount with
            | .quantity q => 0 ≤ q
            | .notional n => 0 ≤ n) :
    (∀ oid' b', b.place_order req oid = (.ok oid', b') →
       ∀ a, 0 ≤ b.get_buying_power a → 0 ≤ b'.get_buying_power a) ∧
    (∀ asset needed,
       b.get_asset_and_buying_power_needed (mkOrder req oid)
         = .ok (asset, needed) →
       b.get_buying_power asset < needed →
       b.place_order req oid = (.err (.insufficientBuyingPower asset), b)) := by
  obtain ⟨q, n, hgc, hq0, hn0, hnq⟩ :
      ∃ q n, b.get_current_quantity_and_notional req.asset_pair req.amount
               = .ok (q, n) ∧ 0 ≤ q ∧ 0 ≤ n ∧ n = q * c := by
    cases hamtEq : req.amount with
    | quantity q0 =>
      rw [hamtEq] at hamt
      exact ⟨q0, q0 * c, gcqan_of_npu (Amount.quantity q0) hcur, hamt,
        mul_nonneg hamt hc.le, rfl⟩
    | notional n0 =>
      rw [hamtEq] at hamt
      exact ⟨n0 / c, n0, gcqan_of_npu (Amount.notional n0) hcur,
        div_nonneg hamt hc.le, hamt, (div_mul_cancel₀ n0 hc.ne').symm⟩
  constructor
  · intro oid' b' h a ha
    simp only [Broker.place_order] at h
    split at h
    · exact Outcome.noConfusion (congrArg Prod.fst h)
    · exact Outcome.noConfusion (congrArg Prod.fst h)
    · rename_i u b1 heq
      cases u
      have h1 := queue_ok_bp_nonneg heq a ha
      obtain ⟨b2, h2, hpres⟩ := place_second_stage_bp heq hcur hgc hq0 hn0 hnq
      split at h
      · rename_i b2x heq2
        rw [h2] at heq2
        injection heq2 with hh1 hh2
        injection h with hp1 hp2
        subst hh2
        subst hp2
        exact hpres a h1
      · rename_i e2 b2x heq2
        rw [h2] at heq2
        injection heq2 with hh1 hh2
        exact Outcome.noConfusion hh1
      · rename_i b2x heq2
        rw [h2] at heq2
        injection heq2 with hh1 hh2
        exact Outcome.noConfusion hh1
  · intro asset needed hg hlt
    have hqerr : b.queue_order (mkOrder req oid)
        = (.err (.insufficientBuyingPower asset), b) := by
      simp only [Broker.queue_order, hg]
      rw [if_pos hlt]
    simp only [Broker.place_order, hqerr]

theorem place_order_bp_nonneg_witness :
    (∀ oid' b', brokerC5.place_order reqC3 1 = (.ok oid', b') →
       ∀ a, 0 ≤ brokerC5.get_buying_power a → 0 ≤ b'.get_buying_power a) ∧
    (∀ asset needed,
       brokerC5.get_asset_and_buying_power_needed (mkOrder reqC3 1)
         = .ok (asset, needed) →
       brokerC5.get_buying_power asset < needed →
       brokerC5.place_order reqC3 1
         = (.err (.insufficientBuyingPower asset), brokerC5)) :=
  place_order_bp_nonneg brokerC5 reqC3 1 1 (by rfl) (by norm_num)
    (by show (0:ℚ) ≤ 10; norm_num)

/-- C6: a limit buy whose limit price is strictly above the current
price fills immediately; the fill's average price is the *current*
price (not the limit), and the buying power of the notional asset ends
at `before - limit*quantity + (limit*quantity - notional)` — the
worst-case reservation minus the actual cost, i.e. the excess
reservation is credited back. -/
theorem limit_buy_above_price_fills (b : Broker) (req : OrderRequest)
    (oid : Nat) (c lp q n : ℚ)
    (hside : req.side = .buy)
    (hlp : req.limit_price = some lp)
    (hcur : b.get_notional_per_unit req.asset_pair = .ok c)
    (hclp : c < lp)
    (hgc : b.get_current_quantity_and_notional req.asset_pair req.amount
             = .ok (q, n))
    (hqne : q ≠ 0)
    (hnq : n = q * c)
    (hdistinct : req.asset_pair.quantity_asset ≠ req.asset_pair.notional_asset)
    (hbp : ¬ b.get_buying_power req.asset_pair.notional_asset < lp * q) :
    ∃ b', b.place_order req oid = (.ok oid, b') ∧
      (∃ o', alGet b'.orders oid = some o' ∧ o'.status = .filled ∧
        o'.average_fill_price = some c) ∧
      b'.get_buying_power req.asset_pair.notional_asset
        = b.get_buying_power req.asset_pair.notional_asset
            - lp * q + (lp * q - n) := by
  have hside' : (mkOrder req oid).side = .buy := hside
  have hlp' : (mkOrder req oid).limit_price = some lp := hlp
  have hgc' : b.get_current_quantity_and_notional (mkOrder req oid).asset_pair
      (mkOrder req oid).amount = .ok (q, n) := hgc
  have hg : b.get_asset_and_buying_power_needed (mkOrder req oid)
      = .ok (req.asset_pair.notional_asset, lp * q) := by
    simp only [Broker.get_asset_and_buying_power_needed, hgc', hside', hlp',
      eq_self_iff_true, if_true]
    rfl
  obtain ⟨b1, hqueue⟩ : ∃ b1, b.queue_order (mkOrder req oid) = (.ok (), b1) := by
    simp only [Broker.queue_order, hg]
    rw [if_neg hbp]
    exact ⟨_, rfl⟩
  obtain ⟨asset0, needed0, hg0, _, hbpf⟩ := queue_ok_bp hqueue
  rw [hg] at hg0
  injection hg0 with hg0
  injection hg0 with hg0a hg0n
  subst hg0a
  subst hg0n
  obtain ⟨hna, hnp, ho0⟩ := queue_ok_spec hqueue
  have ho : alGet b1.orders oid = some (mkOrder req oid) := ho0
  have hcur1 : b1.get_notional_per_unit (mkOrder req oid).asset_pair = .ok c := by
    rw [get_npu_congr b b1 _ hna hnp]
    exact hcur
  have hgc1 : b1.get_current_quantity_and_notional (mkOrder req oid).asset_pair
      (mkOrder req oid).amount = .ok (q, n) := by
    rw [gcqan_congr b b1 _ _ hna hnp]
    exact hgc'
  have hcond : c = lp ∨ (((mkOrder req oid).side = .buy) ↔ c < lp) :=
    Or.inr (iff_of_true hside' hclp)
  have hmaybe : b1.maybe_update_order oid =
      (.ok (), { fillLedger b1 (mkOrder req oid) q n with
                 orders := alInsert (fillLedger b1 (mkOrder req oid) q n).orders
                             oid (filledOrder (mkOrder req oid) q n) }) := by
    rw [maybe_update_eq_cond ho hcur1 hlp', if_pos hcond]
    exact fill_eq_ok ho hgc1
  refine ⟨{ fillLedger b1 (mkOrder req oid) q n with
            orders := alInsert (fillLedger b1 (mkOrder req oid) q n).orders oid
                        (filledOrder (mkOrder req oid) q n) },
    ?_, ⟨filledOrder (mkOrder req oid) q n, ?_, rfl, ?_⟩, ?_⟩
  · simp only [Broker.place_order, hqueue, hlp', Option.isSome_some, if_true,
      hmaybe]
  · rw [alGet_alInsert]
    simp
  · show some (n / q) = some c
    rw [hnq, mul_comm, mul_div_assoc, div_self hqne, mul_one]
  · show (fillLedger b1 (mkOrder req oid) q n).get_buying_power
        req.asset_pair.notional_asset = _
    rw [fillLedger_bp_buy_limit b1 q n hside' hlp']
    rw [if_pos (show (mkOrder req oid).asset_pair.notional_asset
          = req.asset_pair.notional_asset from rfl)]
    rw [if_neg (show ¬ (mkOrder req oid).asset_pair.quantity_asset
          = req.asset_pair.notional_asset from hdistinct)]
    rw [hbpf req.asset_pair.notional_asset,
      if_pos (show req.asset_pair.notional_asset
          = req.asset_pair.notional_asset from rfl)]

/-- Limit buy of 10 GBP at limit 2 while the price is 1. -/
def reqC6 : OrderRequest :=
  { asset_pair := gbpUsd, amount := .quantity 10,
    limit_price := some 2, side := .buy }

theorem limit_buy_above_price_fills_witness :
    ∃ b', brokerC5.place_order reqC6 1 = (.ok 1, b') ∧
      (∃ o', alGet b'.orders 1 = some o' ∧ o'.status = .filled ∧
        o'.average_fill_price = some 1) ∧
      b'.get_buying_power reqC6.asset_pair.notional_asset
        = brokerC5.get_buying_power reqC6.asset_pair.notional_asset
            - 2 * 10 + (2 * 10 - 10) :=
  limit_buy_above_price_fills brokerC5 reqC6 1 1 2 10 10
    (by rfl) (by rfl) (by rfl) (by norm_num)
    (by norm_num [Broker.get_current_quantity_and_notional,
          Broker.get_notional_per_unit, Broker.check_notional, alGet,
          getAssetValue, brokerC5, reqC6, gbpUsd])
    (by norm_num) (by norm_num) (by decide)
    (by norm_num [Broker.get_buying_power, getAssetValue, alGet, brokerC5,
          reqC6, gbpUsd])

/-! ### The re-evaluation loop and the market-order panic (C1, C2) -/

theorem snpuLoop_cons (b : Broker) (id : Nat) (rest : List Nat) :
    Broker.snpuLoop b (id :: rest) =
      match b.maybe_update_order id with
      | (.ok _, b') => b'.snpuLoop rest
      | (.err e, b') => (.err e, b')
      | (.panicked, b') => (.panicked, b') := rfl

theorem npu_ok_elim {b : Broker} {p : AssetPair} {c : ℚ}
    (h : b.get_notional_per_unit p = .ok c) :
    p.notional_asset ∈ b.notional_assets ∧
      alGet b.notional_per_unit p = some c := by
  unfold Broker.get_notional_per_unit Broker.check_notional at h
  split at h
  · exact Except.noConfusion h
  · rename_i u heq
    have hmem : p.notional_asset ∈ b.notional_assets := by
      by_cases hm : p.notional_asset ∈ b.notional_assets
      · exact hm
      · rw [if_neg hm] at heq
        exact Except.noConfusion heq
    split at h
    · rename_i v hsome
      injection h with he
      subst he
      exact ⟨hmem, hsome⟩
    · exact Except.noConfusion h

theorem npu_intro {b : Broker} {p : AssetPair} {c : ℚ}
    (hmem : p.notional_asset ∈ b.notional_assets)
    (hsome : alGet b.notional_per_unit p = some c) :
    b.get_notional_per_unit p = .ok c := by
  unfold Broker.get_notional_per_unit Broker.check_notional
  rw [if_pos hmem, hsome]

/-- If every order in the table has a priced pair, and some order in the
remaining id list is a market order (`limit_price = None`), then the
re-evaluation loop of `set_notional_per_unit` reaches that order's
`limit_price.unwrap()` and panics. -/
theorem snpuLoop_panics (ids : List Nat) :
    ∀ b : Broker,
    (∀ oid o, alGet b.orders oid = some o →
      ∃ c, b.get_notional_per_unit o.asset_pair = .ok c) →
    (∃ oid, oid ∈ ids ∧ ∃ o, alGet b.orders oid = some o ∧
      o.limit_price = none) →
    (Broker.snpuLoop b ids).1 = .panicked := by
  induction ids with
  | nil =>
    rintro b _ ⟨oid, hmem, _⟩
    exact absurd hmem (List.not_mem_nil oid)
  | cons id rest ih =>
    rintro b hpriced ⟨moid, hmem, mo, hmo, hmolim⟩
    rw [snpuLoop_cons]
    cases halGet : alGet b.orders id with
    | none =>
      have hpan : b.maybe_update_order id = (.panicked, b) := by
        unfold Broker.maybe_update_order
        rw [halGet]
      rw [hpan]
    | some o =>
      obtain ⟨c, hc⟩ := hpriced id o halGet
      cases hlim : o.limit_price with
      | none =>
        rw [maybe_update_eq_market halGet hc hlim]
      | some lp =>
        have hne : moid ≠ id := by
          intro he
          subst he
          rw [halGet] at hmo
          injection hmo with he2
          subst he2
          rw [hlim] at hmolim
          exact Option.noConfusion hmolim
        have hmem' : moid ∈ rest := by
          cases List.mem_cons.mp hmem with
          | inl h => exact absurd h hne
          | inr h => exact h
        rw [maybe_update_eq_cond halGet hc hlim]
        by_cases hcond : c = lp ∨ ((o.side = .buy) ↔ c < lp)
        · rw [if_pos hcond, fill_eq_ok halGet (gcqan_of_npu o.amount hc)]
          have horders := (fillLedger_fields b o
            (match o.amount with
             | .quantity q => q
             | .notional n => n / c)
            (match o.amount with
             | .quantity q => q * c
             | .notional n => n)).2.2.2
          refine ih _ ?_ ⟨moid, hmem', mo, ?_, hmolim⟩
          · intro oid2 o2 h2
            have h2' : alGet (alInsert b.orders id
                (filledOrder o
                  (match o.amount with
                   | .quantity q => q
                   | .notional n => n / c)
                  (match o.amount with
                   | .quantity q => q * c
                   | .notional n => n))) oid2 = some o2 := by
              rw [← horders]
              exact h2
            rw [alGet_alInsert] at h2'
            have hcongr : ∀ p : AssetPair,
                ({ fillLedger b o
                     (match o.amount with
                      | .quantity q => q
                      | .notional n => n / c)
                     (match o.amount with
                      | .quantity q => q * c
                      | .notional n => n) with
                   orders := alInsert (fillLedger b o
                     (match o.amount with
                      | .quantity q => q
                      | .notional n => n / c)
                     (match o.amount with
                      | .quantity q => q * c
                      | .notional n => n)).orders id
                     (filledOrder o
                       (match o.amount with
                        | .quantity q => q
                        | .notional n => n / c)
                       (match o.amount with
                        | .quantity q => q * c
                        | .notional n => n)) } : Broker).get_notional_per_unit p
                  = b.get_notional_per_unit p := by
              intro p
              exact get_npu_congr b _ p
                (fillLedger_fields b o _ _).1 (fillLedger_fields b o _ _).2.1
            by_cases hid : id = oid2
            · rw [if_pos hid] at h2'
              injection h2' with he2
              subst he2
              refine ⟨c, ?_⟩
              rw [hcongr]
              exact hc
            · rw [if_neg hid] at h2'
              obtain ⟨c2, hc2⟩ := hpriced oid2 o2 h2'
              refine ⟨c2, ?_⟩
              rw [hcongr]
              exact hc2
          · show alGet (alInsert (fillLedger b o _ _).orders id
              (filledOrder o _ _)) moid = some mo
            rw [horders, alGet_alInsert,
              if_neg (fun h => hne h.symm)]
            exact hmo
        · rw [if_neg hcond]
          exact ih b hpriced ⟨moid, hmem', mo, hmo, hmolim⟩

theorem alGet_mem_keys {κ ν : Type} [DecidableEq κ] {m : List (κ × ν)}
    {k : κ} {v : ν} (h : alGet m k = some v) : k ∈ m.map Prod.fst := by
  induction m with
  | nil => exact Option.noConfusion h
  | cons kv rest ih =>
    obtain ⟨k0, v0⟩ := kv
    by_cases h0 : k0 = k
    · simp [h0]
    · have h' : alGet rest k = some v := by
        have hifeq : (if k0 = k then some v0 else alGet rest k) = some v := h
        rwa [if_neg h0] at hifeq
      simp [ih h']

/-- C2: from any state in which every order's pair is either the pair
being priced or already priced (true of every state built through
`place_order`, which requires a price at placement), and whose order
table holds at least one market order, `set_notional_per_unit` on a
valid pair does not return: the re-evaluation loop reaches the market
order's `limit_price.clone().unwrap()` and panics. -/
theorem set_npu_market_order_panics (b : Broker) (pair : AssetPair)
    (price : ℚ)
    (hvalid : pair.notional_asset ∈ b.notional_assets)
    (hpriced : ∀ oid o, alGet b.orders oid = some o →
       o.asset_pair = pair ∨
         ∃ c, b.get_notional_per_unit o.asset_pair = .ok c)
    (hmarket : ∃ oid o, alGet b.orders oid = some o ∧
       o.limit_price = none) :
    (b.set_notional_per_unit pair price).1 = .panicked := by
  unfold Broker.set_notional_per_unit Broker.check_notional
  rw [if_pos hvalid]
  apply snpuLoop_panics
  · intro oid o h
    have h' : alGet b.orders oid = some o := h
    rcases hpriced oid o h' with hp | ⟨c, hcp⟩
    · subst hp
      refine ⟨price, npu_intro hvalid ?_⟩
      show alGet (alInsert b.notional_per_unit o.asset_pair price)
        o.asset_pair = some price
      rw [alGet_alInsert, if_pos rfl]
    · obtain ⟨hmem, hsome⟩ := npu_ok_elim hcp
      by_cases hpp : pair = o.asset_pair
      · refine ⟨price, npu_intro hmem ?_⟩
        show alGet (alInsert b.notional_per_unit pair price)
          o.asset_pair = some price
        rw [alGet_alInsert, if_pos hpp]
      · refine ⟨c, npu_intro hmem ?_⟩
        show alGet (alInsert b.notional_per_unit pair price)
          o.asset_pair = some c
        rw [alGet_alInsert, if_neg hpp]
        exact hsome
  · obtain ⟨moid, mo, hmo, hml⟩ := hmarket
    exact ⟨moid, alGet_mem_keys hmo, mo, hmo, hml⟩

/-- A market order that has already filled, as `place_order` leaves it
in the table. -/
def marketOrderC2 : Order :=
  { order_id := 0, asset_pair := gbpUsd, amount := .quantity 10,
    limit_price := none, filled_quantity := 10,
    average_fill_price := some 1, status := .filled,
    type_ := .market, side := .buy }

/-- Broker state after a filled market order, before a price update. -/
def brokerC2 : Broker :=
  { currency := usd, notional_assets := [usd],
    buying_power_balances := [(usd, 0)],
    orders := [(0, marketOrderC2)],
    notional_per_unit := [(gbpUsd, 1)],
    balances := [(usd, 10)] }

theorem set_npu_market_order_panics_witness :
    (brokerC2.set_notional_per_unit gbpUsd 2).1 = .panicked :=
  set_npu_market_order_panics brokerC2 gbpUsd 2 (by decide)
    (by
      intro oid o h
      by_cases h0 : (0 : Nat) = oid
      · subst h0
        have h' : some marketOrderC2 = some o := h
        injection h' with ho
        subst ho
        exact Or.inl rfl
      · have h' : (if (0 : Nat) = oid then some marketOrderC2
            else alGet [] oid) = some o := h
        rw [if_neg h0] at h'
        exact Option.noConfusion h')
    ⟨0, marketOrderC2, rfl, rfl⟩

/-- A limit buy that has already filled at price 1 (limit 2). -/
def filledLimitBuyC1 : Order :=
  { order_id := 0, asset_pair := gbpUsd, amount := .quantity 10,
    limit_price := some 2, filled_quantity := 10,
    average_fill_price := some 1, status := .filled,
    type_ := .limit, side := .buy }

/-- Broker state holding only `filledLimitBuyC1`, with its settled
balances (10 GBP bought, USD spent). -/
def brokerC1 : Broker :=
  { currency := usd, notional_assets := [usd],
    buying_power_balances := [(usd, 0), (gbp, 10)],
    orders := [(0, filledLimitBuyC1)],
    notional_per_unit := [(gbpUsd, 1)],
    balances := [(usd, 0), (gbp, 10)] }

/-- C1 (the code, against the claim): `set_notional_per_unit` runs
`maybe_update_order` over *every* order with no status or type check, so
a price update that satisfies a *Filled* limit order's condition fills
it a second time: the GBP balance doubles to 20 and the order's
`average_fill_price` is overwritten from 1 to the new price 2. -/
theorem set_npu_refills_filled_order :
    (brokerC1.set_notional_per_unit gbpUsd 2).1 = .ok () ∧
    brokerC1.get_balance gbp = 10 ∧
    (brokerC1.set_notional_per_unit gbpUsd 2).2.get_balance gbp = 20 ∧
    (alGet (brokerC1.set_notional_per_unit gbpUsd 2).2.orders 0).map
        Order.average_fill_price = some (some 2) ∧
    alGet brokerC1.orders 0 = some filledLimitBuyC1 ∧
    filledLimitBuyC1.status = .filled ∧
    filledLimitBuyC1.average_fill_price = some 1 := by
  refine ⟨?_, ?_, ?_, ?_, ?_, rfl, rfl⟩ <;>
    norm_num [Broker.set_notional_per_unit, Broker.snpuLoop,
      Broker.maybe_update_order, Broker.check_notional,
      Broker.get_notional_per_unit, Broker.get_current_quantity_and_notional,
      Broker.fill_order_immediately, fillLedger, filledOrder,
      Broker.update_balance, Broker.update_buying_power, updateValue,
      Broker.get_balance, getAssetValue, alGet, alInsert, brokerC1,
      filledLimitBuyC1, gbpUsd, usd_ne_gbp, gbp_ne_usd, Option.map]

/-! ### The simulated environment (`src/simulated/environment.rs`)

Time (`chrono::DateTime`/`Duration`) is modelled by `ℤ`, one tick per
minute (the unit only matters relatively).  The per-refresh body of
`update()` — for each tracked pair, fetch the bar at `now` and push the
mid price into the broker — does not depend on the loop variable in the
source (the bar is fetched at `&now` every iteration), so it is
abstracted as a state transformer `σ → Except ε σ` applied once per
iteration; the list of loop-variable values is returned as the trace of
passes.  `Option` fuel makes the `while` loop a total function: `none`
models non-termination within the given fuel. -/

structure Bar where
  low : ℚ
  high : ℚ
  open_ : ℚ
  close : ℚ
  date_time : Int
deriving DecidableEq, Repr

/-- Contract `BarDataSource::get_bar(pair, date_time, bar_duration)`.  The trait
returns `Result<Option<Bar>>`; a source error merely propagates through
`?`, and the claims quantify over sources, so the error channel is
omitted and sources are total queries. -/
def BarDataSource : Type := AssetPair → Int → Int → Option Bar

/-- The `while last_processed_time <= now` loop of
`SimulatedEnvironment::update`: run the per-refresh body, break after
the pass at `t = now`, otherwise step to `min(t + refresh, now)`. -/
def updateLoop {σ ε : Type} (refresh now : Int) (body : σ → Except ε σ) :
    Nat → Int → σ → Option (Except ε (σ × List Int))
  | 0, _, _ => none
  | fuel + 1, t, s =>
    if t ≤ now then
      match body s with
      | .error e => some (.error e)
      | .ok s1 =>
        if t = now then some (.ok (s1, [t]))
        else
          match updateLoop refresh now body fuel (min (t + refresh) now) s1 with
          | none => none
          | some (.error e) => some (.error e)
          | some (.ok (s2, ts)) => some (.ok (s2, t :: ts))
    else some (.ok (s, []))

structure EnvState (σ : Type) where
  last_processed_time : Option Int
  inner : σ

inductive EnvErr (ε : Type)
  | notInitialized
  | body (e : ε)

/-- Method `SimulatedEnvironment::update`: fail `NotInitialized` when
`last_processed_time` is `None`, else run the catch-up loop from it and
set `last_processed_time = now`. -/
def envUpdate {σ ε : Type} (refresh : Int) (body : σ → Except ε σ)
    (now : Int) (fuel : Nat) (env : EnvState σ) :
    Option (Except (EnvErr ε) (EnvState σ × List Int)) :=
  match env.last_processed_time with
  | none => some (.error .notInitialized)
  | some t0 =>
    match updateLoop refresh now body fuel t0 env.inner with
    | none => none
    | some (.error e) => some (.error (.body e))
    | some (.ok (s1, ts)) =>
      some (.ok ({ last_processed_time := some now, inner := s1 }, ts))

theorem updateLoop_zero_refresh_stuck :
    ∀ fuel : Nat,
      updateLoop (σ := Unit) (ε := Unit) 0 1 (fun s => Except.ok s)
        fuel 0 () = none := by
  intro fuel
  induction fuel with
  | zero => rfl
  | succ n ih =>
    have hmin : min ((0:Int) + 0) 1 = (0:Int) := by norm_num
    norm_num [updateLoop, hmin, ih]

/-- C7, counterexample to the claim as stated: with
`refresh_interval = 0` (the builder accepts any `Duration`) and
`last_processed_time = 0 < now = 1`, the step
`min(t + refresh, now)` never advances `t`, so `update()` loops
forever — no fuel makes it return. -/
theorem environment_update_nonterminating_counterexample :
    ¬ ∃ fuel r,
      envUpdate (σ := Unit) (ε := Unit) 0 (fun s => Except.ok s) 1 fuel
        { last_processed_time := some 0, inner := () } = some r := by
  rintro ⟨fuel, r, h⟩
  simp only [envUpdate, updateLoop_zero_refresh_stuck fuel] at h
  exact Option.noConfusion h

/-- With a positive refresh step, the catch-up loop from `t0 ≤ now`
terminates within `(now - t0).toNat + 1` iterations, and its trace of
passes starts at `t0`, steps by `t ↦ min(t + refresh, now)`, and ends
with a final pass at `now`. -/
theorem updateLoop_terminates {σ ε : Type} (refresh now : Int)
    (body : σ → Except ε σ) (hr : 0 < refresh) :
    ∀ (fuel : Nat) (t0 : Int) (s : σ), t0 ≤ now → (now - t0).toNat < fuel →
      ∃ r, updateLoop refresh now body fuel t0 s = some r ∧
        ∀ s1 ts, r = .ok (s1, ts) →
          ts.head? = some t0 ∧ ts.getLast? = some now ∧
          List.Chain' (fun a b => b = min (a + refresh) now) ts := by
  intro fuel
  induction fuel with
  | zero =>
    intro t0 s ht hf
    omega
  | succ n ih =>
    intro t0 s ht hf
    cases hb : body s with
    | error e =>
      refine ⟨.error e, ?_, fun s1 ts hc => Except.noConfusion hc⟩
      simp only [updateLoop, if_pos ht, hb]
    | ok s1 =>
      by_cases heq : t0 = now
      · refine ⟨.ok (s1, [t0]), ?_, ?_⟩
        · simp only [updateLoop, if_pos ht, hb, if_pos heq]
        · intro s2 ts h3
          injection h3 with h3
          injection h3 with hs3 hts3
          subst hs3
          subst hts3
          exact ⟨rfl, by rw [heq]; rfl, List.chain'_singleton t0⟩
      · have ht' : min (t0 + refresh) now ≤ now := min_le_right _ _
        have hdec : (now - min (t0 + refresh) now).toNat < n := by
          rcases min_choice (t0 + refresh) now with hm | hm <;> rw [hm] <;> omega
        obtain ⟨r, hrec, hspec⟩ := ih (min (t0 + refresh) now) s1 ht' hdec
        cases r with
        | error e =>
          refine ⟨.error e, ?_, fun s2 ts hc => Except.noConfusion hc⟩
          simp only [updateLoop, if_pos ht, hb, if_neg heq, hrec]
        | ok pr =>
          obtain ⟨s2, ts⟩ := pr
          obtain ⟨hhead, hlast, hchain⟩ := hspec s2 ts rfl
          refine ⟨.ok (s2, t0 :: ts), ?_, ?_⟩
          · simp only [updateLoop, if_pos ht, hb, if_neg heq, hrec]
          · intro s3 ts3 h3
            injection h3 with h3
            injection h3 with hs3 hts3
            subst hs3
            subst hts3
            have hne : ts ≠ [] := by
              intro hnil
              rw [hnil] at hhead
              exact Option.noConfusion hhead
            refine ⟨rfl, ?_, ?_⟩
            · cases ts with
              | nil => exact absurd rfl hne
              | cons x tsx =>
                rw [List.getLast?_cons_cons]
                exact hlast
            · rw [List.chain'_cons']
              refine ⟨?_, hchain⟩
              intro y hy
              rw [hhead] at hy
              injection hy with hy
              exact hy.symm

/-- C7 (amended): provided the configured refresh step is positive and
the environment is initialized with `last_processed_time = t0 ≤ now`,
`update()` terminates (within `(now - t0).toNat + 1` loop iterations);
on success `last_processed_time = now`, and the trace of catch-up
passes starts at `t0`, advances by `t ↦ min(t + refresh_interval, now)`
and ends with a final pass at `now`. -/
theorem environment_update_terminates {σ ε : Type} (refresh now t0 : Int)
    (body : σ → Except ε σ) (s : σ)
    (hr : 0 < refresh) (ht : t0 ≤ now) :
    ∃ res, envUpdate refresh body now ((now - t0).toNat + 1)
        { last_processed_time := some t0, inner := s } = some res ∧
      ∀ env1 ts, res = .ok (env1, ts) →
        env1.last_processed_time = some now ∧
        ts.head? = some t0 ∧ ts.getLast? = some now ∧
        List.Chain' (fun a b => b = min (a + refresh) now) ts := by
  obtain ⟨r, hloop, hspec⟩ :=
    updateLoop_terminates refresh now body hr ((now - t0).toNat + 1) t0 s ht
      (by omega)
  cases r with
  | error e =>
    refine ⟨.error (.body e), ?_, fun env1 ts hc => Except.noConfusion hc⟩
    simp only [envUpdate, hloop]
  | ok pr =>
    obtain ⟨s1, ts⟩ := pr
    obtain ⟨hhead, hlast, hchain⟩ := hspec s1 ts rfl
    refine ⟨.ok ({ last_processed_time := some now, inner := s1 }, ts), ?_, ?_⟩
    · simp only [envUpdate, hloop]
    · intro env1 ts1 h1
      injection h1 with h1
      injection h1 with he1 hts1
      subst he1
      subst hts1
      exact ⟨rfl, hhead, hlast, hchain⟩

theorem environment_update_terminates_witness :
    ∃ res, envUpdate (σ := Unit) (ε := Unit) 1 (fun s => Except.ok s) 2
        (((2:Int) - 0).toNat + 1)
        { last_processed_time := some 0, inner := () } = some res ∧
      ∀ env1 ts, res = .ok (env1, ts) →
        env1.last_processed_time = some 2 ∧
        ts.head? = some 0 ∧ ts.getLast? = some 2 ∧
        List.Chain' (fun a b => b = min (a + 1) 2) ts :=
  environment_update_terminates 1 2 0 (fun s => Except.ok s) ()
    (by norm_num) (by norm_num)

/-- Method `Market::get_latest_minute_bar` for the simulated environment: the
source hardcodes `bar_duration = Duration::minutes(1)` (one tick
here). -/
def get_latest_minute_bar (src : BarDataSource) (pair : AssetPair)
    (now : Int) : Option Bar :=
  let bar_duration : Int := 1
  match src pair now bar_duration with
  | none => none
  | some bar =>
    if bar.date_time + bar_duration > now then
      src pair (now - bar_duration) bar_duration
    else
      some bar

/-- A bar stamped in the future of every query. -/
def badBar : Bar :=
  { low := 1, high := 1, open_ := 1, close := 1, date_time := 5 }

/-- C8, counterexample to the claim as stated: against a data source
that answers every query with a bar stamped at time 5, the query at
`now = 0` takes the retry branch and returns that bar unchecked, so the
returned bar violates `date_time + bar_duration ≤ now`. -/
theorem get_latest_bar_counterexample :
    get_latest_minute_bar (fun _ _ _ => some badBar) gbpUsd 0 = some badBar ∧
    badBar.date_time + 1 > 0 := by
  constructor
  · simp only [get_latest_minute_bar, badBar]
    norm_num
  · norm_num [badBar]

/-- C8 (amended): if the data source never returns a bar stamped after
the queried time, then `get_latest_minute_bar` never leaks a
currently-forming bar: when the bar fetched at `now` has
`date_time + bar_duration > now`, the result is exactly the single
retry at `now - bar_duration`, and every bar returned satisfies
`date_time + bar_duration ≤ now`. -/
theorem get_latest_bar_no_forming_bar (src : BarDataSource)
    (pair : AssetPair) (now : Int)
    (hsrc : ∀ p t d bar, src p t d = some bar → bar.date_time ≤ t) :
    (∀ b0, src pair now 1 = some b0 → b0.date_time + 1 > now →
       get_latest_minute_bar src pair now = src pair (now - 1) 1) ∧
    (∀ bar, get_latest_minute_bar src pair now = some bar →
       bar.date_time + 1 ≤ now) := by
  constructor
  · intro b0 h0 hform
    simp only [get_latest_minute_bar, h0, if_pos hform]
  · intro bar h
    unfold get_latest_minute_bar at h
    cases h0 : src pair now 1 with
    | none =>
      simp only [h0] at h
      exact Option.noConfusion h
    | some b0 =>
      simp only [h0] at h
      by_cases hform : b0.date_time + 1 > now
      · rw [if_pos hform] at h
        have := hsrc pair (now - 1) 1 bar h
        omega
      · rw [if_neg hform] at h
        injection h with he
        subst he
        omega

/-- A source whose bars always close before the queried time. -/
def goodSrc : BarDataSource :=
  fun _ t _ => some { low := 1, high := 1, open_ := 1, close := 1,
                      date_time := t - 5 }

theorem get_latest_bar_no_forming_bar_witness :
    (∀ b0, goodSrc gbpUsd 0 1 = some b0 → b0.date_time + 1 > 0 →
       get_latest_minute_bar goodSrc gbpUsd 0 = goodSrc gbpUsd (0 - 1) 1) ∧
    (∀ bar, get_latest_minute_bar goodSrc gbpUsd 0 = some bar →
       bar.date_time + 1 ≤ 0) :=
  get_latest_bar_no_forming_bar goodSrc gbpUsd 0
    (by
      intro p t d bar h
      injection h with he
      subst he
      show t - 5 ≤ t
      omega)
